import Mathlib

/-!
Shallow embedding of `happenslol/process-reader` (`src/main.rs`).

The program multiplexes a child process's stdout/stderr pipes into a single
ordered sequence of events.  We embed:

* bytes as `Nat` (values `< 256` in practice; nothing below depends on a bound),
* Rust's `String::from_utf8_lossy(..).to_string()` as `decodeUtf8Lossy`
  (maximal-subpart replacement policy, output as a list of Unicode scalar values),
* the byte-scanning loop of `read_pipe` as a fold over the chunk,
* the drain loop of `read_pipe` over an explicit trace of read outcomes,
* `ProcessReader` as a record of the mutable fields (`stdout_buf`, `stderr_buf`,
  `output_buf`, `done`), with the OS side (the reactor `poll`, the pipe reads and
  `Child::try_wait`) supplied as an explicit environment trace; `next` consumes a
  prefix of that trace.  When the trace runs out mid-step the model returns
  `none` for "underdetermined" (the outer `Option` layer); the iterator's own
  `Option<Result<Out, Error>>` is the inner `Option (Except IoError Out)`.
-/

namespace ProcReader

/-- `BUFFER_SIZE` from the source: the fixed scratch size for each `read`. -/
def BUFFER_SIZE : Nat := 9

/-- The `Stream` tag enum from the source (`Stdout` / `Stderr`). -/
inductive Stream where
  | Stdout
  | Stderr
deriving DecidableEq

/-- `std::process::ExitStatus`, an opaque platform status, modelled as an integer. -/
abbrev ExitStatus := Int

/-- The `Out` event enum from the source.  Line text is modelled as the list of
Unicode scalar values produced by the lossy decoding. -/
inductive Out where
  | Stdout (text : List Nat)
  | Stderr (text : List Nat)
  | Done (status : ExitStatus)
deriving DecidableEq

/-- The text carried by a line event (`Done` carries none). -/
def textOf : Out → List Nat
  | Out.Stdout t => t
  | Out.Stderr t => t
  | Out.Done _ => []

/-- `io::ErrorKind`, only distinguishing `WouldBlock` as the source does. -/
inductive ErrorKind where
  | wouldBlock
  | other (code : Nat)
deriving DecidableEq

/-- `io::Error`, reduced to its kind. -/
structure IoError where
  kind : ErrorKind
deriving DecidableEq

/-- Outcome of one `reader.read(&mut buf)` call: `bytes c` embeds `Ok(n)` with the
`n` bytes read (`bytes []` is the zero-length read at pipe close), `err e` embeds
`Err(e)`. -/
inductive ReadResult where
  | bytes (c : List Nat)
  | err (e : IoError)
deriving DecidableEq

/-- First continuation-byte ranges accepted for a 3-byte UTF-8 sequence, per
first byte, as in Rust's `core::str` validation table. -/
abbrev valid3 (b b1 : Nat) : Prop :=
  (b = 0xE0 ∧ 0xA0 ≤ b1 ∧ b1 ≤ 0xBF) ∨
  (0xE1 ≤ b ∧ b ≤ 0xEC ∧ 0x80 ≤ b1 ∧ b1 ≤ 0xBF) ∨
  (b = 0xED ∧ 0x80 ≤ b1 ∧ b1 ≤ 0x9F) ∨
  (0xEE ≤ b ∧ b ≤ 0xEF ∧ 0x80 ≤ b1 ∧ b1 ≤ 0xBF)

/-- First continuation-byte ranges accepted for a 4-byte UTF-8 sequence. -/
abbrev valid4 (b b1 : Nat) : Prop :=
  (b = 0xF0 ∧ 0x90 ≤ b1 ∧ b1 ≤ 0xBF) ∨
  (0xF1 ≤ b ∧ b ≤ 0xF3 ∧ 0x80 ≤ b1 ∧ b1 ≤ 0xBF) ∨
  (b = 0xF4 ∧ 0x80 ≤ b1 ∧ b1 ≤ 0x8F)

/-- A UTF-8 continuation byte. -/
abbrev isCont (b : Nat) : Prop := 0x80 ≤ b ∧ b ≤ 0xBF

/-- Rust's `String::from_utf8_lossy(..).to_string()`: total lossy UTF-8 decoding
with one U+FFFD replacement per maximal invalid subpart (including an incomplete
sequence at the end of the input). -/
def decodeUtf8Lossy : List Nat → List Nat
  | [] => []
  | b :: rest =>
    if b < 0x80 then b :: decodeUtf8Lossy rest
    else if b < 0xC2 then 0xFFFD :: decodeUtf8Lossy rest
    else if b ≤ 0xDF then
      match rest with
      | [] => [0xFFFD]
      | b1 :: rest2 =>
        if isCont b1 then ((b - 0xC0) * 64 + (b1 - 0x80)) :: decodeUtf8Lossy rest2
        else 0xFFFD :: decodeUtf8Lossy (b1 :: rest2)
    else if b ≤ 0xEF then
      match rest with
      | [] => [0xFFFD]
      | b1 :: rest2 =>
        if valid3 b b1 then
          match rest2 with
          | [] => [0xFFFD]
          | b2 :: rest3 =>
            if isCont b2 then
              ((b - 0xE0) * 4096 + (b1 - 0x80) * 64 + (b2 - 0x80)) ::
                decodeUtf8Lossy rest3
            else 0xFFFD :: decodeUtf8Lossy (b2 :: rest3)
        else 0xFFFD :: decodeUtf8Lossy (b1 :: rest2)
    else if b ≤ 0xF4 then
      match rest with
      | [] => [0xFFFD]
      | b1 :: rest2 =>
        if valid4 b b1 then
          match rest2 with
          | [] => [0xFFFD]
          | b2 :: rest3 =>
            if isCont b2 then
              match rest3 with
              | [] => [0xFFFD]
              | b3 :: rest4 =>
                if isCont b3 then
                  ((b - 0xF0) * 262144 + (b1 - 0x80) * 4096 +
                      (b2 - 0x80) * 64 + (b3 - 0x80)) :: decodeUtf8Lossy rest4
                else 0xFFFD :: decodeUtf8Lossy (b3 :: rest4)
            else 0xFFFD :: decodeUtf8Lossy (b2 :: rest3)
        else 0xFFFD :: decodeUtf8Lossy (b1 :: rest2)
    else 0xFFFD :: decodeUtf8Lossy rest

/-- Build the line event pushed at a line-feed boundary
(`String::from_utf8_lossy(&str_buf[..]).to_string()` routed by `which`). -/
def mkLine (which : Stream) (bytes : List Nat) : Out :=
  match which with
  | Stream.Stdout => Out.Stdout (decodeUtf8Lossy bytes)
  | Stream.Stderr => Out.Stderr (decodeUtf8Lossy bytes)

/-- One iteration of the byte-scanning `for` loop in `read_pipe`: state is
`(str_buf, out_buf)`.  A line feed flushes the accumulator as a line event, a
carriage return is dropped, any other byte is appended to the accumulator. -/
def processByte (which : Stream) (st : List Nat × List Out) (b : Nat) :
    List Nat × List Out :=
  if b = 10 then ([], st.2 ++ [mkLine which st.1])
  else if b = 13 then st
  else (st.1 ++ [b], st.2)

/-- The whole `for i in 0..n` scan of one read chunk. -/
def scanChunk (which : Stream) (chunk : List Nat) (sb : List Nat) (ob : List Out) :
    List Nat × List Out :=
  chunk.foldl (processByte which) (sb, ob)

/-- The `read_pipe` drain loop over a trace of read outcomes.  Returns `none`
when the trace is exhausted before the loop terminates; otherwise the loop's
`Result<(), io::Error>` together with the final `(str_buf, out_buf)` (which, as
`&mut` state in the source, persists across the early error return). -/
def read_pipe (which : Stream) :
    List ReadResult → List Nat → List Out →
      Option (Except IoError Unit × (List Nat × List Out))
  | [], _, _ => none
  | ReadResult.err e :: _, sb, ob =>
    if e.kind = ErrorKind.wouldBlock then some (Except.ok (), (sb, ob))
    else some (Except.error e, (sb, ob))
  | ReadResult.bytes [] :: _, sb, ob => some (Except.ok (), (sb, ob))
  | ReadResult.bytes (c :: cs) :: rest, sb, ob =>
    read_pipe which rest (scanChunk which (c :: cs) sb ob).1
      (scanChunk which (c :: cs) sb ob).2

/-- The two `mio::Token`s registered at startup (`STDOUT`, `STDERR`).  These are
the only tokens the reactor can report for this registry, matching the
`unreachable!()` arm of the source's dispatch. -/
inductive Token where
  | stdout
  | stderr
deriving DecidableEq

/-- Outcome of one `poll.poll(..)` call: on success, the batch of ready events,
each carrying its token and the trace of read outcomes its `read_pipe` call will
observe; on failure, the reactor error. -/
inductive PollResult where
  | ready (evs : List (Token × List ReadResult))
  | pollErr (e : IoError)
deriving DecidableEq

/-- Outcome of one `child.try_wait()` call. -/
inductive WaitResult where
  | exited (status : ExitStatus)
  | running
  | waitErr (e : IoError)
deriving DecidableEq

/-- The environment for one loop iteration of `next`: what its poll reports
(with the read traces) and what `try_wait` would answer afterwards. -/
structure WakeInput where
  poll : PollResult
  tryWait : WaitResult
deriving DecidableEq

/-- The mutable fields of `ProcessReader` (the child handle, the pipe ends and
the reactor are modelled by the environment trace). -/
structure ProcessReader where
  stdout_buf : List Nat
  stderr_buf : List Nat
  output_buf : List Out
  done : Bool
deriving DecidableEq

/-- The state right after `ProcessReader::start`: empty accumulators, empty
event queue, `done = false`. -/
def initState : ProcessReader :=
  { stdout_buf := [], stderr_buf := [], output_buf := [], done := false }

/-- One `read_pipe` call dispatched by token, threading the matching
accumulator and the shared event queue through the reader state. -/
def applyDrain (s : ProcessReader) (tok : Token) (t : List ReadResult) :
    Option (Except IoError Unit × ProcessReader) :=
  match tok with
  | Token.stdout =>
    match read_pipe Stream.Stdout t s.stdout_buf s.output_buf with
    | none => none
    | some (r, p) => some (r, { s with stdout_buf := p.1, output_buf := p.2 })
  | Token.stderr =>
    match read_pipe Stream.Stderr t s.stderr_buf s.output_buf with
    | none => none
    | some (r, p) => some (r, { s with stderr_buf := p.1, output_buf := p.2 })

/-- The `for event in self.events.iter()` dispatch loop of `next`: drains run in
order; the first drain error returns immediately with the state mutated so far. -/
def runDrains : List (Token × List ReadResult) → ProcessReader →
    Option (Except IoError Unit × ProcessReader)
  | [], s => some (Except.ok (), s)
  | (tok, t) :: rest, s =>
    match applyDrain s tok t with
    | none => none
    | some (Except.ok _, s1) => runDrains rest s1
    | some (Except.error e, s1) => some (Except.error e, s1)

/-- The `loop` body of `ProcessReader::next` (after the `done` early return):
pop the queue if nonempty; otherwise wait on the reactor (consume one
`WakeInput`), run the drains, and either loop back (queue refilled, or child
still running) or yield `Done` / an error.  Returns `none` when the environment
trace is exhausted; otherwise the yielded item, the new state and the unconsumed
environment. -/
def nextAux : List WakeInput → ProcessReader →
    Option (Option (Except IoError Out) × ProcessReader × List WakeInput)
  | env, s =>
    match s.output_buf with
    | x :: rest => some (some (Except.ok x), { s with output_buf := rest }, env)
    | [] =>
      match env with
      | [] => none
      | w :: env' =>
        match w.poll with
        | PollResult.pollErr e => some (some (Except.error e), s, env')
        | PollResult.ready evs =>
          match runDrains evs s with
          | none => none
          | some (Except.error e, s1) => some (some (Except.error e), s1, env')
          | some (Except.ok _, s1) =>
            if s1.output_buf.isEmpty then
              match w.tryWait with
              | WaitResult.exited st =>
                some (some (Except.ok (Out.Done st)), { s1 with done := true }, env')
              | WaitResult.running => nextAux env' s1
              | WaitResult.waitErr e => some (some (Except.error e), s1, env')
            else nextAux env' s1

/-- `ProcessReader::next`: the `done` early return, then the loop. -/
def ProcessReader.next (env : List WakeInput) (s : ProcessReader) :
    Option (Option (Except IoError Out) × ProcessReader × List WakeInput) :=
  if s.done then some (none, s, env) else nextAux env s

/-- Call `next` up to `n` times, threading state and environment, collecting the
yielded items; stops early if the environment trace is exhausted mid-step. -/
def runSteps : Nat → List WakeInput → ProcessReader →
    List (Option (Except IoError Out)) × ProcessReader × List WakeInput
  | 0, env, s => ([], s, env)
  | n + 1, env, s =>
    match ProcessReader.next env s with
    | none => ([], s, env)
    | some (r, s1, env1) =>
      ((r :: (runSteps n env1 s1).1), (runSteps n env1 s1).2.1,
        (runSteps n env1 s1).2.2)

/-- Specification-side helper: split a byte sequence at its line-feed bytes into
the completed segments (the bytes strictly between consecutive line feeds, CRs
included) and the trailing unterminated fragment. -/
def lfSplit : List Nat → List (List Nat) × List Nat
  | [] => ([], [])
  | b :: bs =>
    if b = 10 then ([] :: (lfSplit bs).1, (lfSplit bs).2)
    else
      match (lfSplit bs).1 with
      | [] => ([], b :: (lfSplit bs).2)
      | s :: ss => ((b :: s) :: ss, (lfSplit bs).2)

/-- Partition a byte sequence into successive chunks of `BUFFER_SIZE` bytes
(the last chunk possibly shorter), as the fixed scratch buffer would. -/
def chunksOfBuf : List Nat → List (List Nat)
  | [] => []
  | b :: bs =>
    ((b :: bs).take BUFFER_SIZE) :: chunksOfBuf ((b :: bs).drop BUFFER_SIZE)
termination_by l => l.length
decreasing_by
  simp only [List.length_drop, List.length_cons, BUFFER_SIZE]
  omega

/-- A non-terminal event (a line, not `Done`). -/
def notDone : Out → Bool
  | Out.Done _ => false
  | _ => true

/-- The event queue holds no `Done` event. -/
def noDone (l : List Out) : Prop := ∀ x ∈ l, notDone x = true

/-! ### Lemmas about the lossy decoder -/

/-- Every scalar value produced by the lossy decoding is either a byte of the
input (an ASCII byte passed through) or at least `0x80` (a decoded multi-byte
scalar or the replacement character U+FFFD). -/
theorem decode_mem_lower (bs : List Nat) :
    ∀ c ∈ decodeUtf8Lossy bs, c ∈ bs ∨ 0x80 ≤ c := by
  induction bs using decodeUtf8Lossy.induct with
  | case1 => simp [decodeUtf8Lossy]
  | case2 b rest2 h ih =>
    intro c hc
    rw [decodeUtf8Lossy.eq_def] at hc
    simp only [h, if_true, if_false, List.mem_cons] at hc
    rcases hc with rfl | hc
    · exact Or.inl (List.mem_cons_self _ _)
    · rcases ih c hc with h2 | h2
      · exact Or.inl (List.mem_cons_of_mem _ h2)
      · exact Or.inr h2
  | case3 b rest2 h1 h2 ih =>
    intro c hc
    rw [decodeUtf8Lossy.eq_def] at hc
    simp only [h1, h2, if_true, if_false, List.mem_cons] at hc
    rcases hc with rfl | hc
    · exact Or.inr (by omega)
    · rcases ih c hc with h3 | h3
      · exact Or.inl (List.mem_cons_of_mem _ h3)
      · exact Or.inr h3
  | case4 b h1 h2 h3 =>
    intro c hc
    rw [decodeUtf8Lossy.eq_def] at hc
    simp only [h1, h2, h3, if_true, if_false, List.mem_singleton] at hc
    exact Or.inr (by omega)
  | case5 b h1 h2 h3 b1 rest2 hk ih =>
    intro c hc
    rw [decodeUtf8Lossy.eq_def] at hc
    simp only [h1, h2, h3, if_true, if_false] at hc
    rw [if_pos hk] at hc
    simp only [List.mem_cons] at hc
    rcases hc with heq | hc
    · obtain ⟨hk1, hk2⟩ := hk
      exact Or.inr (by omega)
    · rcases ih c hc with h4 | h4
      · exact Or.inl (List.mem_cons_of_mem _ (List.mem_cons_of_mem _ h4))
      · exact Or.inr h4
  | case6 b h1 h2 h3 b1 rest2 hk ih =>
    intro c hc
    rw [decodeUtf8Lossy.eq_def] at hc
    simp only [h1, h2, h3, if_true, if_false] at hc
    rw [if_neg hk] at hc
    simp only [List.mem_cons] at hc
    rcases hc with rfl | hc
    · exact Or.inr (by omega)
    · rcases ih c hc with h4 | h4
      · exact Or.inl (List.mem_cons_of_mem _ h4)
      · exact Or.inr h4
  | case7 b h1 h2 h3 h4 =>
    intro c hc
    rw [decodeUtf8Lossy.eq_def] at hc
    simp only [h1, h2, h3, h4, if_true, if_false, List.mem_singleton] at hc
    exact Or.inr (by omega)
  | case8 b h1 h2 h3 h4 b1 hv =>
    intro c hc
    rw [decodeUtf8Lossy.eq_def] at hc
    simp only [h1, h2, h3, h4, if_true, if_false] at hc
    rw [if_pos hv] at hc
    simp only [List.mem_singleton] at hc
    exact Or.inr (by omega)
  | case9 b h1 h2 h3 h4 b1 hv b2 rest2 hk ih =>
    intro c hc
    rw [decodeUtf8Lossy.eq_def] at hc
    simp only [h1, h2, h3, h4, if_true, if_false] at hc
    rw [if_pos hv, if_pos hk] at hc
    simp only [List.mem_cons] at hc
    rcases hc with heq | hc
    · rcases hv with ⟨rfl, hv1, hv2⟩ | ⟨hv1, hv2, hv3, hv4⟩ | ⟨rfl, hv1, hv2⟩ | ⟨hv1, hv2, hv3, hv4⟩
      all_goals exact Or.inr (by omega)
    · rcases ih c hc with h5 | h5
      · exact Or.inl (List.mem_cons_of_mem _ (List.mem_cons_of_mem _
          (List.mem_cons_of_mem _ h5)))
      · exact Or.inr h5
  | case10 b h1 h2 h3 h4 b1 hv b2 rest2 hk ih =>
    intro c hc
    rw [decodeUtf8Lossy.eq_def] at hc
    simp only [h1, h2, h3, h4, if_true, if_false] at hc
    rw [if_pos hv, if_neg hk] at hc
    simp only [List.mem_cons] at hc
    rcases hc with rfl | hc
    · exact Or.inr (by omega)
    · rcases ih c hc with h5 | h5
      · exact Or.inl (List.mem_cons_of_mem _ (List.mem_cons_of_mem _ h5))
      · exact Or.inr h5
  | case11 b h1 h2 h3 h4 b1 rest2 hv ih =>
    intro c hc
    rw [decodeUtf8Lossy.eq_def] at hc
    simp only [h1, h2, h3, h4, if_true, if_false] at hc
    rw [if_neg hv] at hc
    simp only [List.mem_cons] at hc
    rcases hc with rfl | hc
    · exact Or.inr (by omega)
    · rcases ih c hc with h5 | h5
      · exact Or.inl (List.mem_cons_of_mem _ h5)
      · exact Or.inr h5
  | case12 b h1 h2 h3 h4 h5 =>
    intro c hc
    rw [decodeUtf8Lossy.eq_def] at hc
    simp only [h1, h2, h3, h4, h5, if_true, if_false, List.mem_singleton] at hc
    exact Or.inr (by omega)
  | case13 b h1 h2 h3 h4 h5 b1 hv =>
    intro c hc
    rw [decodeUtf8Lossy.eq_def] at hc
    simp only [h1, h2, h3, h4, h5, if_true, if_false] at hc
    rw [if_pos hv] at hc
    simp only [List.mem_singleton] at hc
    exact Or.inr (by omega)
  | case14 b h1 h2 h3 h4 h5 b1 hv b2 hk =>
    intro c hc
    rw [decodeUtf8Lossy.eq_def] at hc
    simp only [h1, h2, h3, h4, h5, if_true, if_false] at hc
    rw [if_pos hv, if_pos hk] at hc
    simp only [List.mem_singleton] at hc
    exact Or.inr (by omega)
  | case15 b h1 h2 h3 h4 h5 b1 hv b2 hk2 b3 rest2 hk3 ih =>
    intro c hc
    rw [decodeUtf8Lossy.eq_def] at hc
    simp only [h1, h2, h3, h4, h5, if_true, if_false] at hc
    rw [if_pos hv, if_pos hk2, if_pos hk3] at hc
    simp only [List.mem_cons] at hc
    rcases hc with heq | hc
    · rcases hv with ⟨rfl, hv1, hv2⟩ | ⟨hv1, hv2, hv3, hv4⟩ | ⟨rfl, hv1, hv2⟩
      all_goals exact Or.inr (by omega)
    · rcases ih c hc with h6 | h6
      · exact Or.inl (List.mem_cons_of_mem _ (List.mem_cons_of_mem _
          (List.mem_cons_of_mem _ (List.mem_cons_of_mem _ h6))))
      · exact Or.inr h6
  | case16 b h1 h2 h3 h4 h5 b1 hv b2 hk2 b3 rest2 hk3 ih =>
    intro c hc
    rw [decodeUtf8Lossy.eq_def] at hc
    simp only [h1, h2, h3, h4, h5, if_true, if_false] at hc
    rw [if_pos hv, if_pos hk2, if_neg hk3] at hc
    simp only [List.mem_cons] at hc
    rcases hc with rfl | hc
    · exact Or.inr (by omega)
    · rcases ih c hc with h6 | h6
      · exact Or.inl (List.mem_cons_of_mem _ (List.mem_cons_of_mem _
          (List.mem_cons_of_mem _ h6)))
      · exact Or.inr h6
  | case17 b h1 h2 h3 h4 h5 b1 hv b2 rest2 hk2 ih =>
    intro c hc
    rw [decodeUtf8Lossy.eq_def] at hc
    simp only [h1, h2, h3, h4, h5, if_true, if_false] at hc
    rw [if_pos hv, if_neg hk2] at hc
    simp only [List.mem_cons] at hc
    rcases hc with rfl | hc
    · exact Or.inr (by omega)
    · rcases ih c hc with h6 | h6
      · exact Or.inl (List.mem_cons_of_mem _ (List.mem_cons_of_mem _ h6))
      · exact Or.inr h6
  | case18 b h1 h2 h3 h4 h5 b1 rest2 hv ih =>
    intro c hc
    rw [decodeUtf8Lossy.eq_def] at hc
    simp only [h1, h2, h3, h4, h5, if_true, if_false] at hc
    rw [if_neg hv] at hc
    simp only [List.mem_cons] at hc
    rcases hc with rfl | hc
    · exact Or.inr (by omega)
    · rcases ih c hc with h6 | h6
      · exact Or.inl (List.mem_cons_of_mem _ h6)
      · exact Or.inr h6
  | case19 b rest2 h1 h2 h3 h4 h5 ih =>
    intro c hc
    rw [decodeUtf8Lossy.eq_def] at hc
    simp only [h1, h2, h3, h4, h5, if_true, if_false, List.mem_cons] at hc
    rcases hc with rfl | hc
    · exact Or.inr (by omega)
    · rcases ih c hc with h6 | h6
      · exact Or.inl (List.mem_cons_of_mem _ h6)
      · exact Or.inr h6

/-- A byte list without line feeds decodes to text without the line-feed
scalar value. -/
theorem decode_no_lf (bs : List Nat) (h : 10 ∉ bs) :
    ∀ c ∈ decodeUtf8Lossy bs, c ≠ 10 := by
  intro c hc hceq
  subst hceq
  rcases decode_mem_lower bs 10 hc with h2 | h2
  · exact h h2
  · omega

/-! ### Lemmas about line framing -/

/-- `lfSplit` at a line feed: open a fresh (empty) completed segment. -/
theorem lfSplit_lf (bs : List Nat) :
    lfSplit (10 :: bs) = ([] :: (lfSplit bs).1, (lfSplit bs).2) := by
  simp [lfSplit]

/-- `lfSplit` at a non-line-feed byte with no completed segment yet. -/
theorem lfSplit_cons_ne (b : Nat) (bs : List Nat) (hb : b ≠ 10)
    (h : (lfSplit bs).1 = []) :
    lfSplit (b :: bs) = ([], b :: (lfSplit bs).2) := by
  simp [lfSplit, if_neg hb, h]

/-- `lfSplit` at a non-line-feed byte, prefixing the first completed segment. -/
theorem lfSplit_cons_ne2 (b : Nat) (bs s : List Nat) (ss : List (List Nat))
    (hb : b ≠ 10) (h : (lfSplit bs).1 = s :: ss) :
    lfSplit (b :: bs) = ((b :: s) :: ss, (lfSplit bs).2) := by
  simp [lfSplit, if_neg hb, h]

/-- One completed segment per line-feed byte. -/
theorem lfSplit_count (bs : List Nat) : (lfSplit bs).1.length = bs.count 10 := by
  induction bs with
  | nil => simp [lfSplit]
  | cons b bs ih =>
    rw [List.count_cons]
    by_cases hb : b = 10
    · subst hb
      rw [lfSplit_lf]
      simp [ih]
    · have hbeq : (10 == b) = false := beq_eq_false_iff_ne.mpr (Ne.symm hb)
      rcases hsegs : (lfSplit bs).1 with _ | ⟨s, ss⟩
      · rw [lfSplit_cons_ne b bs hb hsegs]
        rw [hsegs] at ih
        simp [hbeq, hb, ← ih]
      · rw [lfSplit_cons_ne2 b bs s ss hb hsegs]
        rw [hsegs] at ih
        simp [hbeq, hb, ← ih]

/-- No completed segment contains a line-feed byte. -/
theorem lfSplit_no_lf (bs : List Nat) : ∀ s ∈ (lfSplit bs).1, 10 ∉ s := by
  induction bs with
  | nil => simp [lfSplit]
  | cons b bs ih =>
    by_cases hb : b = 10
    · subst hb
      rw [lfSplit_lf]
      rintro s hs
      rcases List.mem_cons.mp hs with rfl | hs2
      · simp
      · exact ih s hs2
    · rcases hsegs : (lfSplit bs).1 with _ | ⟨s0, ss⟩
      · rw [lfSplit_cons_ne b bs hb hsegs]
        simp
      · rw [lfSplit_cons_ne2 b bs s0 ss hb hsegs]
        intro s hs
        rcases List.mem_cons.mp hs with rfl | hs2
        · intro hmem
          rcases List.mem_cons.mp hmem with rfl | hmem2
          · exact hb rfl
          · exact ih s0 (hsegs ▸ List.mem_cons_self _ _) hmem2
        · exact ih s (hsegs ▸ List.mem_cons_of_mem _ hs2)

/-- Scanning a line feed flushes the accumulator as a line event. -/
theorem processByte_lf (which : Stream) (sb : List Nat) (ob : List Out) :
    processByte which (sb, ob) 10 = ([], ob ++ [mkLine which sb]) := by
  simp [processByte]

/-- Scanning a carriage return changes nothing. -/
theorem processByte_cr (which : Stream) (sb : List Nat) (ob : List Out) :
    processByte which (sb, ob) 13 = (sb, ob) := by
  simp [processByte]

/-- Scanning any other byte appends it to the accumulator. -/
theorem processByte_other (which : Stream) (b : Nat) (sb : List Nat) (ob : List Out)
    (h10 : b ≠ 10) (h13 : b ≠ 13) :
    processByte which (sb, ob) b = (sb ++ [b], ob) := by
  simp [processByte, h10, h13]

/-- Unfolding one scanned byte. -/
theorem scanChunk_cons (which : Stream) (b : Nat) (bs sb : List Nat) (ob : List Out) :
    scanChunk which (b :: bs) sb ob =
      scanChunk which bs (processByte which (sb, ob) b).1
        (processByte which (sb, ob) b).2 := rfl

/-- Scanning a concatenation scans the pieces in order. -/
theorem scanChunk_append (which : Stream) (xs ys sb : List Nat) (ob : List Out) :
    scanChunk which (xs ++ ys) sb ob =
      scanChunk which ys (scanChunk which xs sb ob).1 (scanChunk which xs sb ob).2 := by
  simp [scanChunk, List.foldl_append]

/-- The byte-scanning loop of `read_pipe`, characterised against `lfSplit`: with
accumulator `sb` and queue `ob`, scanning `bs` leaves the CR-stripped trailing
fragment in the accumulator (behind `sb` if no line feed was seen) and appends
one line event per completed segment, each decoding the CR-stripped segment
(the first completed one prefixed by `sb`). -/
theorem scanChunk_lfSplit (which : Stream) (bs : List Nat) :
    ∀ sb ob,
      ((lfSplit bs).1 = [] →
        scanChunk which bs sb ob =
          (sb ++ ((lfSplit bs).2).filter (fun x => x != 13), ob)) ∧
      (∀ s ss, (lfSplit bs).1 = s :: ss →
        scanChunk which bs sb ob =
          (((lfSplit bs).2).filter (fun x => x != 13),
           ob ++ mkLine which (sb ++ s.filter (fun x => x != 13)) ::
             ss.map (fun q => mkLine which (q.filter (fun x => x != 13))))) := by
  induction bs with
  | nil =>
    intro sb ob
    constructor
    · intro _
      simp [scanChunk, lfSplit]
    · intro s ss h
      simp [lfSplit] at h
  | cons b bs ih =>
    intro sb ob
    by_cases hb10 : b = 10
    · subst hb10
      constructor
      · intro h
        rw [lfSplit_lf] at h
        simp at h
      · intro s ss h
        rw [lfSplit_lf] at h
        obtain rfl : ([] : List Nat) = s := (List.cons.injEq _ _ _ _ ▸ h).1
        obtain rfl : (lfSplit bs).1 = ss := (List.cons.injEq _ _ _ _ ▸ h).2
        rw [scanChunk_cons, processByte_lf, lfSplit_lf]
        rcases hsegs : (lfSplit bs).1 with _ | ⟨s1, ss1⟩
        · rw [((ih [] (ob ++ [mkLine which sb])).1) hsegs]
          simp [hsegs]
        · rw [((ih [] (ob ++ [mkLine which sb])).2) s1 ss1 hsegs]
          simp [hsegs]
    · by_cases hb13 : b = 13
      · subst hb13
        have h1310 : (13 : Nat) ≠ 10 := by omega
        constructor
        · intro h
          rcases hsegs : (lfSplit bs).1 with _ | ⟨s1, ss1⟩
          · rw [scanChunk_cons, processByte_cr]
            rw [((ih sb ob).1) hsegs]
            rw [lfSplit_cons_ne 13 bs h1310 hsegs]
            simp
          · rw [lfSplit_cons_ne2 13 bs s1 ss1 h1310 hsegs] at h
            simp at h
        · intro s ss h
          rcases hsegs : (lfSplit bs).1 with _ | ⟨s1, ss1⟩
          · rw [lfSplit_cons_ne 13 bs h1310 hsegs] at h
            simp at h
          · rw [lfSplit_cons_ne2 13 bs s1 ss1 h1310 hsegs] at h
            obtain rfl : (13 :: s1 = s) := (List.cons.injEq _ _ _ _ ▸ h).1
            obtain rfl : ss1 = ss := (List.cons.injEq _ _ _ _ ▸ h).2
            rw [scanChunk_cons, processByte_cr]
            rw [((ih sb ob).2) s1 ss1 hsegs]
            rw [lfSplit_cons_ne2 13 bs s1 ss1 h1310 hsegs]
            simp
      · have hbne : (b != 13) = true := bne_iff_ne.mpr hb13
        constructor
        · intro h
          rcases hsegs : (lfSplit bs).1 with _ | ⟨s1, ss1⟩
          · rw [scanChunk_cons, processByte_other which b sb ob hb10 hb13]
            rw [((ih (sb ++ [b]) ob).1) hsegs]
            rw [lfSplit_cons_ne b bs hb10 hsegs]
            simp [hbne]
          · rw [lfSplit_cons_ne2 b bs s1 ss1 hb10 hsegs] at h
            simp at h
        · intro s ss h
          rcases hsegs : (lfSplit bs).1 with _ | ⟨s1, ss1⟩
          · rw [lfSplit_cons_ne b bs hb10 hsegs] at h
            simp at h
          · rw [lfSplit_cons_ne2 b bs s1 ss1 hb10 hsegs] at h
            obtain rfl : (b :: s1 = s) := (List.cons.injEq _ _ _ _ ▸ h).1
            obtain rfl : ss1 = ss := (List.cons.injEq _ _ _ _ ▸ h).2
            rw [scanChunk_cons, processByte_other which b sb ob hb10 hb13]
            rw [((ih (sb ++ [b]) ob).2) s1 ss1 hsegs]
            rw [lfSplit_cons_ne2 b bs s1 ss1 hb10 hsegs]
            simp [hbne]

/-! ### Lemmas about the drain loop -/

/-- Line events are never `Done`. -/
theorem notDone_mkLine (which : Stream) (bytes : List Nat) :
    notDone (mkLine which bytes) = true := by
  cases which <;> simp [mkLine, notDone]

/-- One scanned byte can only extend the event queue. -/
theorem processByte_extends (which : Stream) (st : List Nat × List Out) (b : Nat) :
    st.2 <+: (processByte which st b).2 := by
  by_cases h10 : b = 10
  · subst h10
    simp [processByte]
  · by_cases h13 : b = 13
    · subst h13
      simp [processByte]
    · simp [processByte, h10, h13]

/-- A whole scanned chunk can only extend the event queue. -/
theorem scanChunk_extends (which : Stream) (ch : List Nat) :
    ∀ sb ob, ob <+: (scanChunk which ch sb ob).2 := by
  induction ch with
  | nil => intro sb ob; simp [scanChunk]
  | cons b ch ih =>
    intro sb ob
    rw [scanChunk_cons]
    exact List.IsPrefix.trans (processByte_extends which (sb, ob) b)
      (ih (processByte which (sb, ob) b).1 (processByte which (sb, ob) b).2)

/-- Scanning preserves the absence of `Done` events in the queue. -/
theorem scanChunk_noDone (which : Stream) (ch : List Nat) :
    ∀ sb ob, noDone ob → noDone (scanChunk which ch sb ob).2 := by
  induction ch with
  | nil => intro sb ob h; simpa [scanChunk] using h
  | cons b ch ih =>
    intro sb ob h
    rw [scanChunk_cons]
    apply ih
    by_cases h10 : b = 10
    · subst h10
      simp only [processByte_lf]
      intro x hx
      rcases List.mem_append.mp hx with hx2 | hx2
      · exact h x hx2
      · rcases List.mem_singleton.mp hx2 with rfl
        exact notDone_mkLine which sb
    · by_cases h13 : b = 13
      · subst h13
        simpa [processByte_cr] using h
      · simpa [processByte_other which b sb ob h10 h13] using h

/-- The drain loop can only extend the event queue, whatever its outcome. -/
theorem read_pipe_extends (which : Stream) :
    ∀ t sb ob r p, read_pipe which t sb ob = some (r, p) → ob <+: p.2 := by
  intro t
  induction t with
  | nil => intro sb ob r p h; simp [read_pipe] at h
  | cons x t ih =>
    intro sb ob r p h
    match x with
    | ReadResult.err e =>
      by_cases hk : e.kind = ErrorKind.wouldBlock
      · simp [read_pipe, hk] at h
        obtain ⟨h1, h2⟩ := h
        subst h2
        exact List.prefix_refl ob
      · simp [read_pipe, hk] at h
        obtain ⟨h1, h2⟩ := h
        subst h2
        exact List.prefix_refl ob
    | ReadResult.bytes [] =>
      simp [read_pipe] at h
      obtain ⟨h1, h2⟩ := h
      subst h2
      exact List.prefix_refl ob
    | ReadResult.bytes (c :: cs) =>
      simp only [read_pipe] at h
      exact List.IsPrefix.trans (scanChunk_extends which (c :: cs) sb ob) (ih _ _ r p h)

/-- The drain loop preserves the absence of `Done` events in the queue. -/
theorem read_pipe_noDone (which : Stream) :
    ∀ t sb ob r p, read_pipe which t sb ob = some (r, p) → noDone ob → noDone p.2 := by
  intro t
  induction t with
  | nil => intro sb ob r p h; simp [read_pipe] at h
  | cons x t ih =>
    intro sb ob r p h hnd
    match x with
    | ReadResult.err e =>
      by_cases hk : e.kind = ErrorKind.wouldBlock
      · simp [read_pipe, hk] at h
        obtain ⟨h1, h2⟩ := h
        subst h2
        exact hnd
      · simp [read_pipe, hk] at h
        obtain ⟨h1, h2⟩ := h
        subst h2
        exact hnd
    | ReadResult.bytes [] =>
      simp [read_pipe] at h
      obtain ⟨h1, h2⟩ := h
      subst h2
      exact hnd
    | ReadResult.bytes (c :: cs) =>
      simp only [read_pipe] at h
      exact ih _ _ r p h (scanChunk_noDone which (c :: cs) sb ob hnd)

/-- Draining a sequence of nonempty successful reads followed by the pipe-close
read succeeds and is exactly the scan of the concatenated bytes. -/
theorem read_pipe_chunks (which : Stream) :
    ∀ cs : List (List Nat), ∀ sb ob, (∀ c ∈ cs, c ≠ []) →
      read_pipe which (cs.map ReadResult.bytes ++ [ReadResult.bytes []]) sb ob
        = some (Except.ok (), scanChunk which cs.flatten sb ob) := by
  intro cs
  induction cs with
  | nil =>
    intro sb ob _
    simp [read_pipe, scanChunk]
  | cons c cs ih =>
    intro sb ob hne
    match c, hne c (List.mem_cons_self _ _) with
    | x :: xs, _ =>
      simp only [List.map_cons, List.cons_append, read_pipe, List.flatten_cons,
        List.append_eq]
      rw [ih _ _ (fun d hd => hne d (List.mem_cons_of_mem _ hd))]
      rw [show x :: (xs ++ cs.flatten) = (x :: xs) ++ cs.flatten from rfl,
        scanChunk_append]

/-- `chunksOfBuf` partitions: concatenating the chunks restores the input. -/
theorem chunksOfBuf_flatten (l : List Nat) : (chunksOfBuf l).flatten = l := by
  induction l using chunksOfBuf.induct with
  | case1 => simp [chunksOfBuf]
  | case2 b bs ih =>
    rw [chunksOfBuf]
    simp only [List.flatten_cons, ih]
    exact List.take_append_drop _ _

/-- `chunksOfBuf` produces no empty chunk. -/
theorem chunksOfBuf_ne_nil (l : List Nat) : ∀ c ∈ chunksOfBuf l, c ≠ [] := by
  induction l using chunksOfBuf.induct with
  | case1 => simp [chunksOfBuf]
  | case2 b bs ih =>
    rw [chunksOfBuf]
    intro c hc
    rcases List.mem_cons.mp hc with rfl | hc2
    · simp [BUFFER_SIZE]
    · exact ih c hc2

/-- A read outcome that keeps the drain loop running: a successful, nonempty
read. -/
def isData (r : ReadResult) : Prop := ∃ c, r = ReadResult.bytes c ∧ c ≠ []

/-- The drain loop returns success exactly when the trace reaches, after data
reads only, a would-block error or a zero-length read. -/
theorem read_pipe_ok_iff (which : Stream) :
    ∀ t sb ob, (∃ p, read_pipe which t sb ob = some (Except.ok (), p)) ↔
      (∃ pre term rest, t = pre ++ term :: rest ∧ (∀ r ∈ pre, isData r) ∧
        (term = ReadResult.bytes [] ∨
          ∃ e, term = ReadResult.err e ∧ e.kind = ErrorKind.wouldBlock)) := by
  intro t
  induction t with
  | nil =>
    intro sb ob
    constructor
    · rintro ⟨p, hp⟩
      simp [read_pipe] at hp
    · rintro ⟨pre, term, rest, h, -, -⟩
      exact absurd h (by simp)
  | cons x t ih =>
    intro sb ob
    match x with
    | ReadResult.err e =>
      by_cases hk : e.kind = ErrorKind.wouldBlock
      · constructor
        · intro _
          exact ⟨[], ReadResult.err e, t, by simp, by simp, Or.inr ⟨e, rfl, hk⟩⟩
        · intro _
          exact ⟨(sb, ob), by simp [read_pipe, hk]⟩
      · constructor
        · rintro ⟨p, hp⟩
          simp [read_pipe, hk] at hp
        · rintro ⟨pre, term, rest, hsplit, hdata, hterm⟩
          cases pre with
          | nil =>
            simp only [List.nil_append, List.cons.injEq] at hsplit
            obtain ⟨rfl, rfl⟩ := hsplit
            rcases hterm with h1 | ⟨e2, h2, h3⟩
            · exact absurd h1 (by simp)
            · cases h2
              exact absurd h3 hk
          | cons r pre2 =>
            simp only [List.cons_append, List.cons.injEq] at hsplit
            obtain ⟨rfl, -⟩ := hsplit
            obtain ⟨c, hc, -⟩ := hdata _ (List.mem_cons_self _ _)
            exact absurd hc (by simp)
    | ReadResult.bytes [] =>
      constructor
      · intro _
        exact ⟨[], ReadResult.bytes [], t, by simp, by simp, Or.inl rfl⟩
      · intro _
        exact ⟨(sb, ob), by simp [read_pipe]⟩
    | ReadResult.bytes (y :: ys) =>
      constructor
      · rintro ⟨p, hp⟩
        simp only [read_pipe] at hp
        obtain ⟨pre, term, rest, hsplit, hdata, hterm⟩ := (ih _ _).mp ⟨p, hp⟩
        exact ⟨ReadResult.bytes (y :: ys) :: pre, term, rest, by simp [hsplit],
          by
            intro r hr
            rcases List.mem_cons.mp hr with rfl | hr2
            · exact ⟨y :: ys, rfl, by simp⟩
            · exact hdata r hr2,
          hterm⟩
      · rintro ⟨pre, term, rest, hsplit, hdata, hterm⟩
        cases pre with
        | nil =>
          simp only [List.nil_append, List.cons.injEq] at hsplit
          obtain ⟨rfl, rfl⟩ := hsplit
          rcases hterm with h1 | ⟨e2, h2, -⟩
          · simp at h1
          · simp at h2
        | cons r pre2 =>
          simp only [List.cons_append, List.cons.injEq] at hsplit
          obtain ⟨rfl, rfl⟩ := hsplit
          obtain ⟨p, hp⟩ := (ih (scanChunk which (y :: ys) sb ob).1
              (scanChunk which (y :: ys) sb ob).2).mpr
            ⟨pre2, term, rest, rfl, fun r hr => hdata r (List.mem_cons_of_mem _ hr), hterm⟩
          exact ⟨p, by simpa [read_pipe] using hp⟩

/-- The drain loop returns a given error exactly when the trace reaches, after
data reads only, that error with a kind other than would-block. -/
theorem read_pipe_err_iff (which : Stream) :
    ∀ t sb ob e, (∃ p, read_pipe which t sb ob = some (Except.error e, p)) ↔
      (∃ pre rest, t = pre ++ ReadResult.err e :: rest ∧ (∀ r ∈ pre, isData r) ∧
        e.kind ≠ ErrorKind.wouldBlock) := by
  intro t
  induction t with
  | nil =>
    intro sb ob e
    constructor
    · rintro ⟨p, hp⟩
      simp [read_pipe] at hp
    · rintro ⟨pre, rest, h, -, -⟩
      exact absurd h (by simp)
  | cons x t ih =>
    intro sb ob e
    match x with
    | ReadResult.err e2 =>
      by_cases hk : e2.kind = ErrorKind.wouldBlock
      · constructor
        · rintro ⟨p, hp⟩
          simp [read_pipe, hk] at hp
        · rintro ⟨pre, rest, hsplit, hdata, hne⟩
          cases pre with
          | nil =>
            simp only [List.nil_append, List.cons.injEq] at hsplit
            obtain ⟨h1, -⟩ := hsplit
            cases h1
            exact absurd hk hne
          | cons r pre2 =>
            simp only [List.cons_append, List.cons.injEq] at hsplit
            obtain ⟨rfl, -⟩ := hsplit
            obtain ⟨c, hc, -⟩ := hdata _ (List.mem_cons_self _ _)
            exact absurd hc (by simp)
      · constructor
        · rintro ⟨p, hp⟩
          simp only [read_pipe, if_neg hk, Option.some.injEq, Prod.mk.injEq] at hp
          obtain ⟨h1, -⟩ := hp
          injection h1 with h3
          subst h3
          exact ⟨[], t, rfl, by simp, hk⟩
        · rintro ⟨pre, rest, hsplit, hdata, hne⟩
          cases pre with
          | nil =>
            simp only [List.nil_append, List.cons.injEq] at hsplit
            obtain ⟨h1, rfl⟩ := hsplit
            cases h1
            exact ⟨(sb, ob), by simp [read_pipe, hk]⟩
          | cons r pre2 =>
            simp only [List.cons_append, List.cons.injEq] at hsplit
            obtain ⟨rfl, -⟩ := hsplit
            obtain ⟨c, hc, -⟩ := hdata _ (List.mem_cons_self _ _)
            exact absurd hc (by simp)
    | ReadResult.bytes [] =>
      constructor
      · rintro ⟨p, hp⟩
        simp [read_pipe] at hp
      · rintro ⟨pre, rest, hsplit, hdata, hne⟩
        cases pre with
        | nil =>
          simp only [List.nil_append, List.cons.injEq] at hsplit
          obtain ⟨h1, -⟩ := hsplit
          simp at h1
        | cons r pre2 =>
          simp only [List.cons_append, List.cons.injEq] at hsplit
          obtain ⟨rfl, -⟩ := hsplit
          obtain ⟨c, hc, hcne⟩ := hdata _ (List.mem_cons_self _ _)
          cases hc
          exact absurd rfl hcne
    | ReadResult.bytes (y :: ys) =>
      constructor
      · rintro ⟨p, hp⟩
        simp only [read_pipe] at hp
        obtain ⟨pre, rest, hsplit, hdata, hne⟩ := (ih _ _ e).mp ⟨p, hp⟩
        exact ⟨ReadResult.bytes (y :: ys) :: pre, rest, by simp [hsplit],
          by
            intro r hr
            rcases List.mem_cons.mp hr with rfl | hr2
            · exact ⟨y :: ys, rfl, by simp⟩
            · exact hdata r hr2,
          hne⟩
      · rintro ⟨pre, rest, hsplit, hdata, hne⟩
        cases pre with
        | nil =>
          simp only [List.nil_append, List.cons.injEq] at hsplit
          obtain ⟨h1, -⟩ := hsplit
          simp at h1
        | cons r pre2 =>
          simp only [List.cons_append, List.cons.injEq] at hsplit
          obtain ⟨rfl, rfl⟩ := hsplit
          obtain ⟨p, hp⟩ := (ih (scanChunk which (y :: ys) sb ob).1
              (scanChunk which (y :: ys) sb ob).2 e).mpr
            ⟨pre2, rest, rfl, fun r hr => hdata r (List.mem_cons_of_mem _ hr), hne⟩
          exact ⟨p, by simpa [read_pipe] using hp⟩

/-- The drain loop runs forever (is underdetermined by the trace) exactly when
every read in the trace is a successful nonempty read. -/
theorem read_pipe_none_iff (which : Stream) :
    ∀ t sb ob, read_pipe which t sb ob = none ↔ ∀ r ∈ t, isData r := by
  intro t
  induction t with
  | nil =>
    intro sb ob
    simp [read_pipe]
  | cons x t ih =>
    intro sb ob
    match x with
    | ReadResult.err e =>
      by_cases hk : e.kind = ErrorKind.wouldBlock
      · constructor
        · intro hp
          simp [read_pipe, hk] at hp
        · intro hall
          obtain ⟨c, hc, -⟩ := hall _ (List.mem_cons_self _ _)
          exact absurd hc (by simp)
      · constructor
        · intro hp
          simp [read_pipe, hk] at hp
        · intro hall
          obtain ⟨c, hc, -⟩ := hall _ (List.mem_cons_self _ _)
          exact absurd hc (by simp)
    | ReadResult.bytes [] =>
      constructor
      · intro hp
        simp [read_pipe] at hp
      · intro hall
        obtain ⟨c, hc, hcne⟩ := hall _ (List.mem_cons_self _ _)
        cases hc
        exact absurd rfl hcne
    | ReadResult.bytes (y :: ys) =>
      constructor
      · intro hp
        simp only [read_pipe] at hp
        intro r hr
        rcases List.mem_cons.mp hr with rfl | hr2
        · exact ⟨y :: ys, rfl, by simp⟩
        · exact ((ih _ _).mp hp) r hr2
      · intro hall
        simp only [read_pipe]
        exact (ih _ _).mpr fun r hr => hall r (List.mem_cons_of_mem _ hr)

/-! ### Lemmas about the iteration step -/

/-- One dispatched drain never touches the `done` flag, only extends the event
queue, and preserves the absence of `Done` events in it. -/
theorem applyDrain_spec (s : ProcessReader) (tok : Token) (t : List ReadResult)
    (r : Except IoError Unit) (s1 : ProcessReader)
    (h : applyDrain s tok t = some (r, s1)) :
    s1.done = s.done ∧ s.output_buf <+: s1.output_buf ∧
      (noDone s.output_buf → noDone s1.output_buf) := by
  cases tok with
  | stdout =>
    rcases hrp : read_pipe Stream.Stdout t s.stdout_buf s.output_buf with - | ⟨r2, p⟩
    · simp [applyDrain, hrp] at h
    · simp only [applyDrain, hrp, Option.some.injEq, Prod.mk.injEq] at h
      obtain ⟨rfl, rfl⟩ := h
      exact ⟨rfl, read_pipe_extends _ _ _ _ _ _ hrp,
        fun hnd => read_pipe_noDone _ _ _ _ _ _ hrp hnd⟩
  | stderr =>
    rcases hrp : read_pipe Stream.Stderr t s.stderr_buf s.output_buf with - | ⟨r2, p⟩
    · simp [applyDrain, hrp] at h
    · simp only [applyDrain, hrp, Option.some.injEq, Prod.mk.injEq] at h
      obtain ⟨rfl, rfl⟩ := h
      exact ⟨rfl, read_pipe_extends _ _ _ _ _ _ hrp,
        fun hnd => read_pipe_noDone _ _ _ _ _ _ hrp hnd⟩

/-- The whole drain dispatch loop never touches the `done` flag, only extends
the event queue, and preserves the absence of `Done` events in it. -/
theorem runDrains_spec :
    ∀ (evs : List (Token × List ReadResult)) (s : ProcessReader)
      (r : Except IoError Unit) (s1 : ProcessReader),
      runDrains evs s = some (r, s1) →
      s1.done = s.done ∧ s.output_buf <+: s1.output_buf ∧
        (noDone s.output_buf → noDone s1.output_buf) := by
  intro evs
  induction evs with
  | nil =>
    intro s r s1 h
    simp only [runDrains, Option.some.injEq, Prod.mk.injEq] at h
    obtain ⟨-, rfl⟩ := h
    exact ⟨rfl, List.prefix_refl _, fun hnd => hnd⟩
  | cons ev evs ih =>
    intro s r s1 h
    obtain ⟨tok, t⟩ := ev
    rcases had : applyDrain s tok t with - | ⟨r2, s2⟩
    · simp [runDrains, had] at h
    · obtain ⟨hd, hp, hn⟩ := applyDrain_spec s tok t r2 s2 had
      cases r2 with
      | ok u =>
        simp only [runDrains, had] at h
        obtain ⟨hd2, hp2, hn2⟩ := ih s2 r s1 h
        exact ⟨hd2.trans hd, hp.trans hp2, fun hnd => hn2 (hn hnd)⟩
      | error e =>
        simp only [runDrains, had, Option.some.injEq, Prod.mk.injEq] at h
        obtain ⟨-, rfl⟩ := h
        exact ⟨hd, hp, hn⟩

/-- `next` loop: a nonempty queue is popped immediately, consuming nothing. -/
theorem nextAux_pop (env : List WakeInput) (s : ProcessReader) (x : Out)
    (rest : List Out) (hbuf : s.output_buf = x :: rest) :
    nextAux env s = some (some (Except.ok x), { s with output_buf := rest }, env) := by
  cases env with
  | nil => rw [nextAux.eq_1, hbuf]
  | cons w env2 => rw [nextAux.eq_2, hbuf]

/-- `next` loop: empty queue and exhausted environment is underdetermined. -/
theorem nextAux_nil (s : ProcessReader) (hbuf : s.output_buf = []) :
    nextAux [] s = none := by
  rw [nextAux.eq_1, hbuf]

/-- `next` loop: a reactor failure is yielded as this step's error. -/
theorem nextAux_pollErr (w : WakeInput) (env : List WakeInput) (s : ProcessReader)
    (e : IoError) (hbuf : s.output_buf = []) (hpoll : w.poll = PollResult.pollErr e) :
    nextAux (w :: env) s = some (some (Except.error e), s, env) := by
  simp only [nextAux.eq_2, hbuf, hpoll]

/-- `next` loop: an underdetermined drain is underdetermined. -/
theorem nextAux_drainNone (w : WakeInput) (env : List WakeInput) (s : ProcessReader)
    (evs : List (Token × List ReadResult)) (hbuf : s.output_buf = [])
    (hpoll : w.poll = PollResult.ready evs) (hrd : runDrains evs s = none) :
    nextAux (w :: env) s = none := by
  simp only [nextAux.eq_2, hbuf, hpoll, hrd]

/-- `next` loop: a drain failure is yielded as this step's error, with the
state the drains produced so far. -/
theorem nextAux_drainErr (w : WakeInput) (env : List WakeInput) (s : ProcessReader)
    (evs : List (Token × List ReadResult)) (e : IoError) (s1 : ProcessReader)
    (hbuf : s.output_buf = []) (hpoll : w.poll = PollResult.ready evs)
    (hrd : runDrains evs s = some (Except.error e, s1)) :
    nextAux (w :: env) s = some (some (Except.error e), s1, env) := by
  simp only [nextAux.eq_2, hbuf, hpoll, hrd]

/-- `next` loop: drains succeeded, queue still empty, child exited: yield
`Done` and set the flag. -/
theorem nextAux_exited (w : WakeInput) (env : List WakeInput) (s : ProcessReader)
    (evs : List (Token × List ReadResult)) (u : Unit) (s1 : ProcessReader)
    (st : ExitStatus) (hbuf : s.output_buf = [])
    (hpoll : w.poll = PollResult.ready evs)
    (hrd : runDrains evs s = some (Except.ok u, s1))
    (hemp : s1.output_buf.isEmpty = true) (hwait : w.tryWait = WaitResult.exited st) :
    nextAux (w :: env) s =
      some (some (Except.ok (Out.Done st)), { s1 with done := true }, env) := by
  simp only [nextAux.eq_2, hbuf, hpoll, hrd, hemp, if_true, hwait]

/-- `next` loop: drains succeeded, queue still empty, child still running:
wait again. -/
theorem nextAux_running (w : WakeInput) (env : List WakeInput) (s : ProcessReader)
    (evs : List (Token × List ReadResult)) (u : Unit) (s1 : ProcessReader)
    (hbuf : s.output_buf = []) (hpoll : w.poll = PollResult.ready evs)
    (hrd : runDrains evs s = some (Except.ok u, s1))
    (hemp : s1.output_buf.isEmpty = true) (hwait : w.tryWait = WaitResult.running) :
    nextAux (w :: env) s = nextAux env s1 := by
  simp only [nextAux.eq_2, hbuf, hpoll, hrd, hemp, if_true, hwait]

/-- `next` loop: drains succeeded, queue still empty, exit check failed: yield
the error. -/
theorem nextAux_waitErr (w : WakeInput) (env : List WakeInput) (s : ProcessReader)
    (evs : List (Token × List ReadResult)) (u : Unit) (s1 : ProcessReader)
    (e : IoError) (hbuf : s.output_buf = []) (hpoll : w.poll = PollResult.ready evs)
    (hrd : runDrains evs s = some (Except.ok u, s1))
    (hemp : s1.output_buf.isEmpty = true) (hwait : w.tryWait = WaitResult.waitErr e) :
    nextAux (w :: env) s = some (some (Except.error e), s1, env) := by
  simp only [nextAux.eq_2, hbuf, hpoll, hrd, hemp, if_true, hwait]

/-- `next` loop: drains refilled the queue: loop back to the pop without
waiting again and without checking the child's exit status. -/
theorem nextAux_refilled (w : WakeInput) (env : List WakeInput) (s : ProcessReader)
    (evs : List (Token × List ReadResult)) (u : Unit) (s1 : ProcessReader)
    (hbuf : s.output_buf = []) (hpoll : w.poll = PollResult.ready evs)
    (hrd : runDrains evs s = some (Except.ok u, s1))
    (hemp : s1.output_buf.isEmpty = false) :
    nextAux (w :: env) s = nextAux env s1 := by
  simp only [nextAux.eq_2, hbuf, hpoll, hrd, hemp, Bool.false_eq_true, if_false]

/-- Case split on a list without rewriting the goal. -/
theorem list_eq_nil_or_cons {α : Type} (l : List α) :
    l = [] ∨ ∃ x rest, l = x :: rest := by
  cases l <;> simp

/-- Master lemma about one pass of the `next` loop body: it consumes a suffix
of the environment, never yields "no item", errors keep the `done` flag and
only extend the queue, a `Done` item sets the flag and reports a status the
environment's exit check produced, and any other item leaves the flag as it
was, with the queue still free of `Done` events. -/
theorem nextAux_spec :
    ∀ (env : List WakeInput) (s : ProcessReader)
      (res : Option (Except IoError Out) × ProcessReader × List WakeInput),
      nextAux env s = some res →
      res.2.2 <:+ env ∧ res.1 ≠ none ∧
      (∀ e, res.1 = some (Except.error e) →
        res.2.1.done = s.done ∧ s.output_buf <+: res.2.1.output_buf ∧
        (noDone s.output_buf → noDone res.2.1.output_buf)) ∧
      (∀ st, res.1 = some (Except.ok (Out.Done st)) → noDone s.output_buf →
        res.2.1.done = true ∧ ∃ w ∈ env, w.tryWait = WaitResult.exited st) ∧
      ((∀ st, res.1 ≠ some (Except.ok (Out.Done st))) → noDone s.output_buf →
        res.2.1.done = s.done ∧ noDone res.2.1.output_buf) ∧
      (res.2.1.done = s.done ∨
        ∃ st, res.1 = some (Except.ok (Out.Done st)) ∧ res.2.1.done = true) := by
  intro env
  induction env with
  | nil =>
    intro s res h
    rcases list_eq_nil_or_cons s.output_buf with hbuf | ⟨x, rest, hbuf⟩
    · rw [nextAux_nil s hbuf] at h
      exact absurd h (by simp)
    · rw [nextAux_pop [] s x rest hbuf] at h
      simp only [Option.some.injEq] at h
      subst h
      refine ⟨List.suffix_refl _, by simp, ?_, ?_, ?_, Or.inl rfl⟩
      · intro e he
        simp at he
      · intro st hst hnd
        have hx : x ∈ s.output_buf := by
          rw [hbuf]
          exact List.mem_cons_self _ _
        have := hnd x hx
        rw [show x = Out.Done st from by injection hst with h2; injection h2] at this
        simp [notDone] at this
      · intro _ hnd
        refine ⟨rfl, ?_⟩
        intro y hy
        apply hnd
        rw [hbuf]
        exact List.mem_cons_of_mem _ hy
  | cons w env ih =>
    intro s res h
    rcases list_eq_nil_or_cons s.output_buf with hbuf | ⟨x, rest, hbuf⟩
    · rcases hpoll : w.poll with evs | e
      · rcases hrd : runDrains evs s with - | ⟨r2, s1⟩
        · rw [nextAux_drainNone w env s evs hbuf hpoll hrd] at h
          exact absurd h (by simp)
        · obtain ⟨hd, hp, hn⟩ := runDrains_spec evs s r2 s1 hrd
          have hnd1 : noDone s1.output_buf := by
            apply hn
            rw [hbuf]
            intro y hy
            simp at hy
          cases r2 with
          | error e2 =>
            rw [nextAux_drainErr w env s evs e2 s1 hbuf hpoll hrd] at h
            simp only [Option.some.injEq] at h
            subst h
            refine ⟨List.suffix_cons _ _, by simp, ?_, ?_, ?_, Or.inl hd⟩
            · intro e he
              refine ⟨hd, ?_, fun _ => hnd1⟩
              rw [hbuf]
              exact List.nil_prefix
            · intro st hst hnd
              simp at hst
            · intro _ _
              exact ⟨hd, hnd1⟩
          | ok u =>
            rcases hemp : s1.output_buf.isEmpty with - | -
            · rw [nextAux_refilled w env s evs u s1 hbuf hpoll hrd hemp] at h
              obtain ⟨hsuf, hnn, herr, hdone, hother, hflag⟩ := ih s1 res h
              refine ⟨hsuf.trans (List.suffix_cons _ _), hnn, ?_, ?_, ?_, ?_⟩
              · intro e he
                obtain ⟨hd2, hp2, hn2⟩ := herr e he
                refine ⟨hd2.trans hd, ?_, fun _ => hn2 hnd1⟩
                rw [hbuf]
                exact List.nil_prefix
              · intro st hst _
                obtain ⟨hd2, w2, hw2, hwt⟩ := hdone st hst hnd1
                exact ⟨hd2, w2, List.mem_cons_of_mem _ hw2, hwt⟩
              · intro hne _
                obtain ⟨hd2, hn2⟩ := hother hne hnd1
                exact ⟨hd2.trans hd, hn2⟩
              · rcases hflag with h6 | h6
                · exact Or.inl (h6.trans hd)
                · exact Or.inr h6
            · rcases hwait : w.tryWait with st | - | e2
              · rw [nextAux_exited w env s evs u s1 st hbuf hpoll hrd hemp hwait] at h
                simp only [Option.some.injEq] at h
                subst h
                refine ⟨List.suffix_cons _ _, by simp, ?_, ?_, ?_,
                  Or.inr ⟨st, rfl, rfl⟩⟩
                · intro e he
                  simp at he
                · intro st2 hst2 hnd
                  refine ⟨by simp, w, List.mem_cons_self _ _, ?_⟩
                  rw [hwait]
                  have heq : Out.Done st = Out.Done st2 := by
                    injection hst2 with h2
                    injection h2
                  injection heq with h3
                  rw [h3]
                · intro hne _
                  exact absurd rfl (hne st)
              · rw [nextAux_running w env s evs u s1 hbuf hpoll hrd hemp hwait] at h
                obtain ⟨hsuf, hnn, herr, hdone, hother, hflag⟩ := ih s1 res h
                refine ⟨hsuf.trans (List.suffix_cons _ _), hnn, ?_, ?_, ?_, ?_⟩
                · intro e he
                  obtain ⟨hd2, hp2, hn2⟩ := herr e he
                  refine ⟨hd2.trans hd, ?_, fun _ => hn2 hnd1⟩
                  rw [hbuf]
                  exact List.nil_prefix
                · intro st hst _
                  obtain ⟨hd2, w2, hw2, hwt⟩ := hdone st hst hnd1
                  exact ⟨hd2, w2, List.mem_cons_of_mem _ hw2, hwt⟩
                · intro hne _
                  obtain ⟨hd2, hn2⟩ := hother hne hnd1
                  exact ⟨hd2.trans hd, hn2⟩
                · rcases hflag with h6 | h6
                  · exact Or.inl (h6.trans hd)
                  · exact Or.inr h6
              · rw [nextAux_waitErr w env s evs u s1 e2 hbuf hpoll hrd hemp hwait] at h
                simp only [Option.some.injEq] at h
                subst h
                refine ⟨List.suffix_cons _ _, by simp, ?_, ?_, ?_, Or.inl hd⟩
                · intro e he
                  refine ⟨hd, ?_, fun _ => hnd1⟩
                  rw [hbuf]
                  exact List.nil_prefix
                · intro st hst hnd
                  simp at hst
                · intro _ _
                  exact ⟨hd, hnd1⟩
      · rw [nextAux_pollErr w env s e hbuf hpoll] at h
        simp only [Option.some.injEq] at h
        subst h
        refine ⟨List.suffix_cons _ _, by simp, ?_, ?_, ?_, Or.inl rfl⟩
        · intro e2 he
          exact ⟨rfl, List.prefix_refl _, fun hnd => hnd⟩
        · intro st hst hnd
          simp at hst
        · intro _ hnd
          exact ⟨rfl, hnd⟩
    · rw [nextAux_pop (w :: env) s x rest hbuf] at h
      simp only [Option.some.injEq] at h
      subst h
      refine ⟨List.suffix_refl _, by simp, ?_, ?_, ?_, Or.inl rfl⟩
      · intro e he
        simp at he
      · intro st hst hnd
        have hx : x ∈ s.output_buf := by
          rw [hbuf]
          exact List.mem_cons_self _ _
        have := hnd x hx
        rw [show x = Out.Done st from by injection hst with h2; injection h2] at this
        simp [notDone] at this
      · intro _ hnd
        refine ⟨rfl, ?_⟩
        intro y hy
        apply hnd
        rw [hbuf]
        exact List.mem_cons_of_mem _ hy

/-- `next` in the `Finished` state: yield nothing, change nothing. -/
theorem next_done (env : List WakeInput) (s : ProcessReader) (h : s.done = true) :
    ProcessReader.next env s = some (none, s, env) := by
  simp [ProcessReader.next, h]

/-- `next` with a nonempty queue pops and yields its head, consuming no wake
from the environment (no reactor wait). -/
theorem next_pop (env : List WakeInput) (s : ProcessReader) (x : Out)
    (rest : List Out) (hdone : s.done = false) (hbuf : s.output_buf = x :: rest) :
    ProcessReader.next env s =
      some (some (Except.ok x), { s with output_buf := rest }, env) := by
  rw [ProcessReader.next, if_neg (by simp [hdone])]
  exact nextAux_pop env s x rest hbuf

/-- A reader that is not `Finished` never yields "no item". -/
theorem next_ne_none (env : List WakeInput) (s : ProcessReader)
    (res : Option (Except IoError Out) × ProcessReader × List WakeInput)
    (hdone : s.done = false) (h : ProcessReader.next env s = some res) :
    res.1 ≠ none := by
  rw [ProcessReader.next, if_neg (by simp [hdone])] at h
  exact (nextAux_spec env s res h).2.1

/-- Once `done` is set, every further step yields nothing and changes nothing. -/
theorem runSteps_done :
    ∀ (n : Nat) (env : List WakeInput) (s : ProcessReader), s.done = true →
      runSteps n env s = (List.replicate n none, s, env) := by
  intro n
  induction n with
  | zero =>
    intro env s h
    simp [runSteps]
  | succ n ih =>
    intro env s h
    simp only [runSteps, next_done env s h, ih env s h, List.replicate_succ]

/-- The terminal-event discipline of a run: wherever a `Done` item appears in
the collected results, no `Done` precedes it, every later result is "no item",
and its status was reported by the environment's exit check. -/
theorem runSteps_split :
    ∀ (n : Nat) (env : List WakeInput) (s : ProcessReader),
      noDone s.output_buf → s.done = false →
      ∀ pre r post st, (runSteps n env s).1 = pre ++ r :: post →
        r = some (Except.ok (Out.Done st)) →
        (∀ y ∈ post, y = none) ∧
        (∀ y ∈ pre, ∀ st2, y ≠ some (Except.ok (Out.Done st2))) ∧
        (∃ w ∈ env, w.tryWait = WaitResult.exited st) := by
  intro n
  induction n with
  | zero =>
    intro env s hnd hdone pre r post st hsplit hr
    rw [runSteps] at hsplit
    exact absurd hsplit.symm (by simp)
  | succ n ih =>
    intro env s hnd hdone pre r post st hsplit hr
    rcases hnx : ProcessReader.next env s with - | ⟨r0, s1, env1⟩
    · rw [runSteps, hnx] at hsplit
      exact absurd hsplit.symm (by simp)
    · rw [runSteps, hnx] at hsplit
      simp only at hsplit
      have hnx2 : nextAux env s = some (r0, s1, env1) := by
        rw [ProcessReader.next, if_neg (by simp [hdone])] at hnx
        exact hnx
      obtain ⟨hsuf, hnn, herr, hdonec, hother, hflag⟩ := nextAux_spec env s (r0, s1, env1) hnx2
      cases pre with
      | nil =>
        simp only [List.nil_append, List.cons.injEq] at hsplit
        obtain ⟨rfl, hrest⟩ := hsplit
        obtain ⟨hd1, hw⟩ := hdonec st hr hnd
        have hpost : (runSteps n env1 s1).1 = List.replicate n none := by
          rw [runSteps_done n env1 s1 hd1]
        refine ⟨?_, by simp, hw⟩
        intro y hy
        rw [← hrest, hpost] at hy
        exact List.eq_of_mem_replicate hy
      | cons p pre2 =>
        simp only [List.cons_append, List.cons.injEq] at hsplit
        obtain ⟨rfl, hrest⟩ := hsplit
        by_cases hp : ∃ st0, r0 = some (Except.ok (Out.Done st0))
        · obtain ⟨st0, rfl⟩ := hp
          obtain ⟨hd1, -⟩ := hdonec st0 rfl hnd
          have hpost : (runSteps n env1 s1).1 = List.replicate n none := by
            rw [runSteps_done n env1 s1 hd1]
          rw [hpost] at hrest
          have : r ∈ List.replicate n (none : Option (Except IoError Out)) := by
            rw [hrest]
            exact List.mem_append_right _ (List.mem_cons_self _ _)
          rw [List.eq_of_mem_replicate this] at hr
          exact absurd hr (by simp)
        · push_neg at hp
          obtain ⟨hd1, hnd1⟩ := hother hp hnd
          obtain ⟨hpost, hpre2, hw⟩ :=
            ih env1 s1 hnd1 (hd1.trans hdone) pre2 r post st hrest hr
          refine ⟨hpost, ?_, ?_⟩
          · intro y hy
            rcases List.mem_cons.mp hy with rfl | hy2
            · exact hp
            · exact hpre2 y hy2
          · obtain ⟨w, hw1, hw2⟩ := hw
            exact ⟨w, hsuf.sublist.subset hw1, hw2⟩

/-! ### Remaining helper lemmas -/

/-- The text of a line event is the lossy decoding of its bytes. -/
theorem textOf_mkLine (which : Stream) (bytes : List Nat) :
    textOf (mkLine which bytes) = decodeUtf8Lossy bytes := by
  cases which <;> rfl

/-- A byte sequence without line feeds splits into no completed segment and
itself as the trailing fragment. -/
theorem lfSplit_all (bs : List Nat) (h : 10 ∉ bs) : lfSplit bs = ([], bs) := by
  induction bs with
  | nil => simp [lfSplit]
  | cons b bs ih =>
    have hb : b ≠ 10 := fun hb => h (hb ▸ List.mem_cons_self _ _)
    have ih2 := ih (fun hm => h (List.mem_cons_of_mem _ hm))
    rw [lfSplit_cons_ne b bs hb (by rw [ih2]), ih2]

/-- The text framed from a CR-stripped, LF-free segment has no line feed. -/
theorem mkLine_no_lf (which : Stream) (q : List Nat) (h : 10 ∉ q) :
    ∀ c ∈ textOf (mkLine which (q.filter (fun x => x != 13))), c ≠ 10 := by
  intro c hc
  rw [textOf_mkLine] at hc
  exact decode_no_lf _ (fun hm => h (List.mem_of_mem_filter hm)) c hc

/-! ### The claims -/

/-- C1: in every run of the reader from its start state, wherever a `Done`
event is successfully yielded, no `Done` was yielded before it, every later
call yields nothing (no item, no error, no repeat), and the status it carries
is one the environment's exit check reported. -/
theorem claim_C1_terminal_done (n : Nat) (env : List WakeInput)
    (pre post : List (Option (Except IoError Out))) (r : Option (Except IoError Out))
    (st : ExitStatus)
    (hsplit : (runSteps n env initState).1 = pre ++ r :: post)
    (hr : r = some (Except.ok (Out.Done st))) :
    (∀ y ∈ post, y = none) ∧
    (∀ y ∈ pre, ∀ st2, y ≠ some (Except.ok (Out.Done st2))) ∧
    (∃ w ∈ env, w.tryWait = WaitResult.exited st) :=
  runSteps_split n env initState (by intro x hx; simp [initState] at hx) rfl
    pre r post st hsplit hr

theorem claim_C1_terminal_done_witness :
    (∀ y ∈ [(none : Option (Except IoError Out))], y = none) ∧
    (∃ w ∈ [({ poll := PollResult.ready [], tryWait := WaitResult.exited 0 } : WakeInput)],
      w.tryWait = WaitResult.exited 0) := by
  have h := claim_C1_terminal_done 2
    [{ poll := PollResult.ready [], tryWait := WaitResult.exited 0 }]
    [] [none] (some (Except.ok (Out.Done 0))) 0 rfl rfl
  exact ⟨h.1, h.2.2⟩

/-- C2: scanning the bytes delivered on one stream emits one line event per
line-feed byte, in order; each event decodes the CR-stripped bytes of its
segment; the number of events is the number of line feeds; the CR-stripped
unterminated fragment stays in the accumulator; and no emitted text contains a
line feed. -/
theorem claim_C2_line_events (which : Stream) (bs : List Nat) :
    (scanChunk which bs [] []).2 =
      ((lfSplit bs).1).map (fun s => mkLine which (s.filter (fun x => x != 13))) ∧
    ((scanChunk which bs [] []).2).length = bs.count 10 ∧
    (scanChunk which bs [] []).1 = ((lfSplit bs).2).filter (fun x => x != 13) ∧
    (∀ ev ∈ (scanChunk which bs [] []).2, ∀ c ∈ textOf ev, c ≠ 10) := by
  have hlen := lfSplit_count bs
  rcases hsegs : (lfSplit bs).1 with - | ⟨s, ss⟩
  · have h1 := (scanChunk_lfSplit which bs [] []).1 hsegs
    rw [hsegs] at hlen
    rw [h1]
    refine ⟨by simp, by simpa using hlen.symm ▸ rfl, by simp, by simp⟩
  · have h2 := (scanChunk_lfSplit which bs [] []).2 s ss hsegs
    rw [hsegs] at hlen
    rw [h2]
    refine ⟨by simp, ?_, by simp, ?_⟩
    · simp only [List.nil_append, List.length_cons, List.length_map]
      simpa using hlen
    · intro ev hev c hc
      simp only [List.nil_append] at hev
      rcases List.mem_cons.mp hev with rfl | hev2
      · refine mkLine_no_lf which s ?_ c (by simpa using hc)
        exact lfSplit_no_lf bs s (by rw [hsegs]; exact List.mem_cons_self _ _)
      · obtain ⟨q, hq, rfl⟩ := List.mem_map.mp hev2
        refine mkLine_no_lf which q ?_ c hc
        exact lfSplit_no_lf bs q (by rw [hsegs]; exact List.mem_cons_of_mem _ hq)

theorem claim_C2_line_events_witness :
    (scanChunk Stream.Stdout [104, 10] [] []).2 =
      [mkLine Stream.Stdout (List.filter (fun x => x != 13) [104])] ∧
    (104 : Nat) ≠ 10 := by
  have h := claim_C2_line_events Stream.Stdout [104, 10]
  refine ⟨by rw [h.1]; rfl, ?_⟩
  exact h.2.2.2 (mkLine Stream.Stdout [104]) (by decide) 104 (by decide)

/-- C3: bytes not terminated by a line feed are never emitted: draining them
followed by the zero-length close read leaves them (CR-stripped) in the
accumulator and adds no event, and a zero-length read ends the drain without
flushing the accumulator. -/
theorem claim_C3_no_partial_flush (which : Stream) (bs sb : List Nat)
    (ob : List Out) (h : 10 ∉ bs) :
    read_pipe which [ReadResult.bytes bs, ReadResult.bytes []] sb ob =
      some (Except.ok (), (sb ++ bs.filter (fun x => x != 13), ob)) ∧
    (∀ t, read_pipe which (ReadResult.bytes [] :: t) sb ob =
      some (Except.ok (), (sb, ob))) := by
  constructor
  · rcases bs with - | ⟨b, bs2⟩
    · simp [read_pipe]
    · have hsegs : (lfSplit (b :: bs2)).1 = [] := by rw [lfSplit_all _ h]
      have hsc := (scanChunk_lfSplit which (b :: bs2) sb ob).1 hsegs
      have hrp : read_pipe which [ReadResult.bytes (b :: bs2), ReadResult.bytes []] sb ob
          = some (Except.ok (), scanChunk which (b :: bs2) sb ob) := rfl
      rw [hrp, hsc, lfSplit_all _ h]
  · intro t
    rfl

theorem claim_C3_no_partial_flush_witness :
    read_pipe Stream.Stdout [ReadResult.bytes [104, 13, 105], ReadResult.bytes []] [] [] =
      some (Except.ok (), ([104, 105], [])) ∧
    read_pipe Stream.Stdout [ReadResult.bytes []] [104] [] =
      some (Except.ok (), ([104], [])) := by
  have h := claim_C3_no_partial_flush Stream.Stdout [104, 13, 105] [] [] (by decide)
  have h2 := claim_C3_no_partial_flush Stream.Stdout [104, 13, 105] [104] [] (by decide)
  exact ⟨h.1, h2.2 []⟩

/-- C4: the line events of a drain do not depend on how the bytes are split
into read chunks: any two partitions into nonempty chunks with the same bytes
drain identically, and in particular draining through `BUFFER_SIZE`-sized
chunks equals the one-pass scan of the whole byte sequence. -/
theorem claim_C4_chunk_invariance (which : Stream) (cs ds : List (List Nat))
    (sb : List Nat) (ob : List Out) (h1 : ∀ c ∈ cs, c ≠ []) (h2 : ∀ d ∈ ds, d ≠ [])
    (hj : cs.flatten = ds.flatten) :
    read_pipe which (cs.map ReadResult.bytes ++ [ReadResult.bytes []]) sb ob =
      read_pipe which (ds.map ReadResult.bytes ++ [ReadResult.bytes []]) sb ob ∧
    (∀ bs : List Nat,
      read_pipe which ((chunksOfBuf bs).map ReadResult.bytes ++ [ReadResult.bytes []]) sb ob
        = some (Except.ok (), scanChunk which bs sb ob)) := by
  constructor
  · rw [read_pipe_chunks which cs sb ob h1, read_pipe_chunks which ds sb ob h2, hj]
  · intro bs
    rw [read_pipe_chunks which (chunksOfBuf bs) sb ob (chunksOfBuf_ne_nil bs),
      chunksOfBuf_flatten]

theorem claim_C4_chunk_invariance_witness :
    read_pipe Stream.Stdout
        ([[104], [10, 105]].map ReadResult.bytes ++ [ReadResult.bytes []]) [] [] =
      read_pipe Stream.Stdout
        ([[104, 10], [105]].map ReadResult.bytes ++ [ReadResult.bytes []]) [] [] := by
  exact (claim_C4_chunk_invariance Stream.Stdout [[104], [10, 105]] [[104, 10], [105]]
    [] [] (by decide) (by decide) (by decide)).1

/-- C5: `next` with a nonempty queue pops and yields its head without touching
the reactor (the environment is returned unconsumed); and when the drains of a
step refill the queue, the step yields the refilled queue's head consuming only
that one wake, and the result does not depend on the wake's exit check. -/
theorem claim_C5_pop_first (env : List WakeInput) (s : ProcessReader) :
    (∀ x rest, s.done = false → s.output_buf = x :: rest →
      ProcessReader.next env s =
        some (some (Except.ok x), { s with output_buf := rest }, env)) ∧
    (∀ w evs u s1 y ys, s.done = false → s.output_buf = [] →
      w.poll = PollResult.ready evs → runDrains evs s = some (Except.ok u, s1) →
      s1.output_buf = y :: ys →
      ProcessReader.next (w :: env) s =
        some (some (Except.ok y), { s1 with output_buf := ys }, env)) := by
  constructor
  · intro x rest hdone hbuf
    exact next_pop env s x rest hdone hbuf
  · intro w evs u s1 y ys hdone hbuf hpoll hrd hbuf1
    rw [ProcessReader.next, if_neg (by simp [hdone])]
    rw [nextAux_refilled w env s evs u s1 hbuf hpoll hrd (by simp [hbuf1])]
    exact nextAux_pop env s1 y ys hbuf1

theorem claim_C5_pop_first_witness :
    ProcessReader.next []
        ({ stdout_buf := [], stderr_buf := [], output_buf := [Out.Stdout [104]],
           done := false } : ProcessReader) =
      some (some (Except.ok (Out.Stdout [104])),
        { stdout_buf := [], stderr_buf := [], output_buf := [], done := false }, []) :=
  (claim_C5_pop_first []
    { stdout_buf := [], stderr_buf := [], output_buf := [Out.Stdout [104]],
      done := false }).1 (Out.Stdout [104]) [] rfl rfl

/-- C6: the drain loop ends in success exactly at a would-block error or a
zero-length read, ends in a given error exactly at that error with another
kind, and does not end at all exactly when every read returns data. -/
theorem claim_C6_drain_termination (which : Stream) (t : List ReadResult)
    (sb : List Nat) (ob : List Out) :
    ((∃ p, read_pipe which t sb ob = some (Except.ok (), p)) ↔
      (∃ pre term rest, t = pre ++ term :: rest ∧ (∀ r ∈ pre, isData r) ∧
        (term = ReadResult.bytes [] ∨
          ∃ e, term = ReadResult.err e ∧ e.kind = ErrorKind.wouldBlock))) ∧
    (∀ e, (∃ p, read_pipe which t sb ob = some (Except.error e, p)) ↔
      (∃ pre rest, t = pre ++ ReadResult.err e :: rest ∧ (∀ r ∈ pre, isData r) ∧
        e.kind ≠ ErrorKind.wouldBlock)) ∧
    (read_pipe which t sb ob = none ↔ ∀ r ∈ t, isData r) :=
  ⟨read_pipe_ok_iff which t sb ob, fun e => read_pipe_err_iff which t sb ob e,
    read_pipe_none_iff which t sb ob⟩

theorem claim_C6_drain_termination_witness :
    ∃ p, read_pipe Stream.Stdout
        [ReadResult.bytes [104], ReadResult.err { kind := ErrorKind.wouldBlock }]
        [] [] = some (Except.ok (), p) := by
  refine (claim_C6_drain_termination Stream.Stdout
      [ReadResult.bytes [104], ReadResult.err { kind := ErrorKind.wouldBlock }]
      [] []).1.mpr
    ⟨[ReadResult.bytes [104]], ReadResult.err { kind := ErrorKind.wouldBlock }, [],
      rfl, ?_, Or.inr ⟨{ kind := ErrorKind.wouldBlock }, rfl, rfl⟩⟩
  intro r hr
  rcases List.mem_singleton.mp hr with rfl
  exact ⟨[104], rfl, by simp⟩

/-- C7: a failed step never sets the `done` flag; the flag becomes true only
by yielding a successful `Done`; and after a failed step the reader still
attempts to produce events (the following step never yields "no item"). -/
theorem claim_C7_failure_not_terminal (env : List WakeInput) (s : ProcessReader)
    (r : Option (Except IoError Out)) (s1 : ProcessReader) (env1 : List WakeInput)
    (h : ProcessReader.next env s = some (r, s1, env1)) :
    (∀ e, r = some (Except.error e) → s1.done = s.done) ∧
    (s.done = false → s1.done = true → ∃ st, r = some (Except.ok (Out.Done st))) ∧
    (s.done = false → (∃ e, r = some (Except.error e)) →
      ∀ env2 res2, ProcessReader.next env2 s1 = some res2 → res2.1 ≠ none) := by
  rcases Bool.eq_false_or_eq_true s.done with hdone | hdone
  · rw [next_done env s hdone] at h
    simp only [Option.some.injEq, Prod.mk.injEq] at h
    obtain ⟨h1, h2, h3⟩ := h
    refine ⟨?_, ?_, ?_⟩
    · intro e he
      rw [← h1] at he
      exact absurd he (by simp)
    · intro hd0
      rw [hdone] at hd0
      exact absurd hd0 (by simp)
    · intro hd0
      rw [hdone] at hd0
      exact absurd hd0 (by simp)
  · rw [ProcessReader.next, if_neg (by simp [hdone])] at h
    obtain ⟨-, -, herr, -, -, hflag⟩ := nextAux_spec env s (r, s1, env1) h
    refine ⟨fun e he => (herr e he).1, ?_, ?_⟩
    · intro _ hd1
      rcases hflag with h6 | ⟨st, hst, -⟩
      · have h7 : s1.done = false := by
          rw [← hdone]
          exact h6
        rw [h7] at hd1
        exact absurd hd1 (by simp)
      · exact ⟨st, hst⟩
    · rintro _ ⟨e, he⟩ env2 res2 h2
      have hd1 : s1.done = false := ((herr e he).1).trans hdone
      exact next_ne_none env2 s1 res2 hd1 h2

theorem claim_C7_failure_not_terminal_witness :
    (({ stdout_buf := [], stderr_buf := [], output_buf := [], done := false }
        : ProcessReader)).done = initState.done := by
  have h := claim_C7_failure_not_terminal
    [{ poll := PollResult.pollErr { kind := ErrorKind.other 5 },
       tryWait := WaitResult.running }]
    initState (some (Except.error { kind := ErrorKind.other 5 })) initState [] rfl
  exact h.1 { kind := ErrorKind.other 5 } rfl

/-- C10: the failing read itself leaves the accumulator and queue untouched;
an erroring drain only ever extends the queue; and after a failed step the
events already queued are still there and are yielded by the following
successful calls. -/
theorem claim_C10_failure_preserves_queue (which : Stream) (e : IoError) :
    (∀ rest sb ob, e.kind ≠ ErrorKind.wouldBlock →
      read_pipe which (ReadResult.err e :: rest) sb ob =
        some (Except.error e, (sb, ob))) ∧
    (∀ t sb ob p, read_pipe which t sb ob = some (Except.error e, p) →
      ob <+: p.2) ∧
    (∀ env s r s1 env1, s.done = false →
      ProcessReader.next env s = some (r, s1, env1) → r = some (Except.error e) →
      s.output_buf <+: s1.output_buf ∧ s1.done = false ∧
      (∀ y ys env2, s1.output_buf = y :: ys →
        ProcessReader.next env2 s1 =
          some (some (Except.ok y), { s1 with output_buf := ys }, env2))) := by
  refine ⟨?_, ?_, ?_⟩
  · intro rest sb ob hk
    simp [read_pipe, hk]
  · intro t sb ob p h
    exact read_pipe_extends which t sb ob _ p h
  · intro env s r s1 env1 hdone h hr
    rw [ProcessReader.next, if_neg (by simp [hdone])] at h
    obtain ⟨-, -, herr, -, -, -⟩ := nextAux_spec env s (r, s1, env1) h
    obtain ⟨hd1, hp1, -⟩ := herr e hr
    have hdone1 : s1.done = false := hd1.trans hdone
    exact ⟨hp1, hdone1, fun y ys env2 hbuf1 => next_pop env2 s1 y ys hdone1 hbuf1⟩

theorem claim_C10_failure_preserves_queue_witness :
    read_pipe Stream.Stdout
        [ReadResult.err { kind := ErrorKind.other 2 }] [104] [Out.Stdout []] =
      some (Except.error { kind := ErrorKind.other 2 }, ([104], [Out.Stdout []])) :=
  (claim_C10_failure_preserves_queue Stream.Stdout { kind := ErrorKind.other 2 }).1
    [] [104] [Out.Stdout []] (by decide)

/-- C8: decoding is total and never surfaces an error: every error the drain
loop yields is a read error from the trace (never a decoding failure), every
line event's text is the total lossy decoding of its bytes, an invalid byte is
replaced by U+FFFD and decoding continues, and a line of invalid bytes is still
emitted as an event. -/
theorem claim_C8_lossy_never_fails (which : Stream) :
    (∀ t sb ob e p, read_pipe which t sb ob = some (Except.error e, p) →
      ReadResult.err e ∈ t ∧ e.kind ≠ ErrorKind.wouldBlock) ∧
    (∀ bs, textOf (mkLine which bs) = decodeUtf8Lossy bs) ∧
    (∀ bs, decodeUtf8Lossy (0xFF :: bs) = 0xFFFD :: decodeUtf8Lossy bs) ∧
    scanChunk which [0xFF, 10] [] [] = ([], [mkLine which [0xFF]]) ∧
    textOf (mkLine which [0xFF]) = [0xFFFD] := by
  refine ⟨?_, ?_, ?_, rfl, ?_⟩
  · intro t sb ob e p h
    obtain ⟨pre, rest, hsplit, -, hne⟩ := (read_pipe_err_iff which t sb ob e).mp ⟨p, h⟩
    refine ⟨?_, hne⟩
    rw [hsplit]
    exact List.mem_append_right _ (List.mem_cons_self _ _)
  · intro bs
    exact textOf_mkLine which bs
  · intro bs
    rcases bs with - | ⟨b1, - | ⟨b2, - | ⟨b3, rest⟩⟩⟩ <;> simp [decodeUtf8Lossy]
  · cases which <;> rfl

theorem claim_C8_lossy_never_fails_witness :
    ReadResult.err ({ kind := ErrorKind.other 3 } : IoError) ∈
      [ReadResult.err ({ kind := ErrorKind.other 3 } : IoError)] ∧
    ({ kind := ErrorKind.other 3 } : IoError).kind ≠ ErrorKind.wouldBlock :=
  (claim_C8_lossy_never_fails Stream.Stdout).1
    [ReadResult.err { kind := ErrorKind.other 3 }] [] []
    { kind := ErrorKind.other 3 } ([], []) rfl

/-- C9: a line-feed byte scanned while the accumulator is empty emits a line
event with empty text: blank lines (`"\n\n"`, `"\r\n"`) become events with
empty text, never skipped. -/
theorem claim_C9_blank_lines (which : Stream) (ob : List Out) (bs : List Nat) :
    processByte which ([], ob) 10 = ([], ob ++ [mkLine which []]) ∧
    textOf (mkLine which []) = [] ∧
    scanChunk which [10, 10] [] [] = ([], [mkLine which [], mkLine which []]) ∧
    scanChunk which [13, 10] [] [] = ([], [mkLine which []]) ∧
    scanChunk which (10 :: bs) [] ob = scanChunk which bs [] (ob ++ [mkLine which []]) := by
  refine ⟨rfl, ?_, rfl, rfl, rfl⟩
  cases which <;> rfl

end ProcReader
